import Mathlib

/-!
Shallow embedding of the `filechain` blockchain core
(`src/filechain/blockchain/block.py` and `src/filechain/blockchain/chain.py`).

Modelling conventions:
* byte strings are `List Nat`;
* `bytes(n)` (Python's zero-filled string of length `n`) is `List.replicate n 0`;
* sha256 is idealised as an injective function, so a content hash is identified
  with its preimage byte string (`contentInput`).  Collisions that arise from two
  different field tuples concatenating to the *same* byte string (the source
  concatenates without delimiters) are therefore modelled exactly, while
  collisions of sha256 itself are idealised away;
* a block hash is `BlockHash.dig content prev`: sha256 over the content input
  followed by the previous block hash.  The genesis sentinel `bytes(0) = b""` is
  `BlockHash.zero`;
* Python dicts are association lists in insertion order (`lookupV`, `upsertV`,
  `eraseV`), matching dict iteration-order semantics;
* loops that Python runs without a bound get explicit fuel; running out of fuel
  models nontermination and is distinguished from `return False` / exceptions.
-/

namespace Filechain

/-- Byte strings, one `Nat` per byte. -/
abbrev ByteStr := List Nat

/-- Python `bytes(n)`: the zero-filled byte string of length `n`. -/
def zerosB (n : Nat) : ByteStr := List.replicate n 0

/-- The four payload fields of `Block.__init__` (`block.py` lines 23-46);
`previous_block_hash` is kept separately because the source sets it post hoc. -/
structure Block where
  file_hash : ByteStr
  index_all : Nat
  chunk : ByteStr
  index : Nat
deriving DecidableEq, Repr

/-- The constructor assertions of `block.py` lines 42 and 45:
`index_all > 0` and `index_all > index >= 0`. -/
def Block.valid (b : Block) : Prop := 0 < b.index_all ∧ b.index < b.index_all

instance (b : Block) : Decidable b.valid := by
  unfold Block.valid
  infer_instance

/-- The byte string hashed for `content_hash` (`block.py` lines 52-55):
`file_hash + bytes(index_all) + chunk + bytes(index)`, concatenated without
delimiters. -/
def contentInput (b : Block) : ByteStr :=
  b.file_hash ++ zerosB b.index_all ++ b.chunk ++ zerosB b.index

/-- Content hashes are compared as dict keys only; with sha256 idealised as
injective they are identified with their preimage `contentInput`. -/
abbrev ContentKey := ByteStr

/-- The `content_hash` of a block, as the dict key it is used for. -/
def contentKey (b : Block) : ContentKey := contentInput b

/-- Block hashes. `zero` is the sentinel `bytes(0)` used as the genesis
predecessor; `dig c p` is sha256 over the content input `c` followed by the
digest `p` (`block.py` lines 151-155). -/
inductive BlockHash where
  | zero : BlockHash
  | dig : ByteStr → BlockHash → BlockHash
deriving DecidableEq, Repr

/-- Nesting depth of a block hash; distinguishes the hashes along a chain. -/
def BlockHash.depth : BlockHash → Nat
  | .zero => 0
  | .dig _ p => p.depth + 1

/-- A linked block: a block whose `previous_block_hash` has been set (and whose
`block_hash` is therefore computed). -/
structure LBlock where
  blk : Block
  prev : BlockHash
deriving DecidableEq, Repr

/-- The `block_hash` of a linked block (`block.py` `__set_block_hash`). -/
def LBlock.bhash (lb : LBlock) : BlockHash := .dig (contentInput lb.blk) lb.prev

/-- `Blockchain.INITIAL_BLOCK` (`chain.py` lines 19-23). -/
def initialBlock : Block := { file_hash := [], index_all := 1, chunk := [], index := 0 }

/-- The genesis block as linked: `previous_block_hash = bytes(0)`. -/
def initialLB : LBlock := { blk := initialBlock, prev := .zero }

/-! ## Association lists modelling Python dicts -/

variable {κ α : Type} [DecidableEq κ]

/-- `d.get(k)` / `d[k]` read: first entry whose key matches. -/
def lookupV : List (κ × α) → κ → Option α
  | [], _ => none
  | (k0, v0) :: rest, k => if k = k0 then some v0 else lookupV rest k

/-- `d[k] = v`: replace the value in place if the key exists (keeping its
position, as Python dicts do), otherwise append a new entry at the end. -/
def upsertV : List (κ × α) → κ → α → List (κ × α)
  | [], k, v => [(k, v)]
  | (k0, v0) :: rest, k, v =>
    if k = k0 then (k0, v) :: rest else (k0, v0) :: upsertV rest k v

/-- `del d[k]`: drop the first entry with the key (no-op when absent; callers
model Python's `KeyError` by checking presence first). -/
def eraseV : List (κ × α) → κ → List (κ × α)
  | [], _ => []
  | (k0, v0) :: rest, k => if k = k0 then rest else (k0, v0) :: eraseV rest k

/-- Overwrite the value stored under a key only when the key is present; used to
model mutation of an object that the dict already references. -/
def updIfPresent : List (κ × α) → κ → α → List (κ × α)
  | [], _, _ => []
  | (k0, v0) :: rest, k, v =>
    if k = k0 then (k0, v) :: rest else (k0, v0) :: updIfPresent rest k v

/-- Python `list.remove(x)`: drop the first occurrence (callers check membership
to model `ValueError`). -/
def removeFirst [DecidableEq β] : List β → β → List β
  | [], _ => []
  | x :: xs, y => if x = y then xs else x :: removeFirst xs y

/-- Keys of an association list are pairwise distinct (true of any Python dict). -/
def KeysNodup (l : List (κ × α)) : Prop := (l.map Prod.fst).Nodup

/-! ## The per-file record (`self.__files[file_hash]`)

In the source this is one `defaultdict(list)` holding the string key
`"index_all"` (an `int`) next to the content-hash keys (lists of block hashes).
The string key can never collide with a content hash, so it is modelled as a
separate optional field; `FileRec.pyLen` recovers Python's `len()` of the mixed
dict.  `indexAll = none` models the `"index_all"` key being absent, which
happens for the genesis file record built by the no-seed constructor. -/

structure FileRec where
  indexAll : Option Nat
  contents : List (ContentKey × List BlockHash)
deriving DecidableEq, Repr

/-- Python `len` of the record dict: content keys plus the `"index_all"` key
when present. -/
def FileRec.pyLen (fr : FileRec) : Nat :=
  fr.contents.length + (if fr.indexAll.isSome then 1 else 0)

abbrev CMap := List (BlockHash × LBlock)
abbrev Files := List (ByteStr × FileRec)

/-- `self.__files[f][c].append(h)` (defaultdict semantics: missing record or
missing bucket are created on access). -/
def appendBucket (fs : Files) (f : ByteStr) (c : ContentKey) (h : BlockHash) : Files :=
  match lookupV fs f with
  | none => fs ++ [(f, { indexAll := none, contents := [(c, [h])] })]
  | some fr =>
    match lookupV fr.contents c with
    | none => upsertV fs f { fr with contents := fr.contents ++ [(c, [h])] }
    | some hs => upsertV fs f { fr with contents := upsertV fr.contents c (hs ++ [h]) }

/-- `self.__files[f]["index_all"] = n`. -/
def setIndexAll (fs : Files) (f : ByteStr) (n : Nat) : Files :=
  match lookupV fs f with
  | none => fs ++ [(f, { indexAll := some n, contents := [] })]
  | some fr => upsertV fs f { fr with indexAll := some n }

/-! ## The chain (`Blockchain`) -/

/-- The state of a `Blockchain` object: `__chain` (block hash to block),
`__files`, and `__latest_block`. -/
structure Chain where
  chainMap : CMap
  files : Files
  latest : LBlock
deriving DecidableEq, Repr

/-- `Blockchain()` with no seed (`chain.py` lines 53-59): only the genesis block,
and — exactly as in the source — no `"index_all"` entry in its file record. -/
def freshChain : Chain :=
  { chainMap := [(initialLB.bhash, initialLB)]
    files := [([], { indexAll := none, contents := [(contentKey initialBlock, [initialLB.bhash])] })]
    latest := initialLB }

/-- Outcome of the guard at the top of `insert_block` (`chain.py` lines 118-124).
`proceed` carries `__files` as left by the guard (the `else` branch records
`index_all` for a new file).  `typeErr` models the `TypeError` raised by
`file_blocks["index_all"] + 1` when the record exists but holds no
`"index_all"` key (the defaultdict returns `[]` and `[] + 1` fails). -/
inductive ChkRes where
  | proceed : Files → ChkRes
  | split : ChkRes
  | typeErr : ChkRes
deriving DecidableEq

/-- The guard of `insert_block`: the walrus `if file_blocks := ...get(...):` is
truthy iff the record exists and is a non-empty dict; the `and` in line 120
short-circuits, so a known content hash skips the `index_all` read. -/
def insertChecks (fs : Files) (b : Block) : ChkRes :=
  match lookupV fs b.file_hash with
  | some fr =>
    if fr.pyLen ≠ 0 then
      if (lookupV fr.contents (contentKey b)).isSome then .proceed fs
      else
        match fr.indexAll with
        | none => .typeErr
        | some n => if n + 1 = fr.pyLen then .split else .proceed fs
    else .proceed (setIndexAll fs b.file_hash b.index_all)
  | none => .proceed (setIndexAll fs b.file_hash b.index_all)

/-- Result of `insert_block`.  `split` is `FileBlockSplitChangedException`; it
carries the chain state at the raise, which is the untouched pre-state because
the raise (line 121) precedes every mutation.  `typeErr` is the uncaught
`TypeError` described at `ChkRes.typeErr` (no claim inspects the state it
leaves, so it carries none). -/
inductive InsRes where
  | ok : Chain → InsRes
  | split : Chain → InsRes
  | typeErr : InsRes
deriving DecidableEq

/-- `insert_block` (`chain.py` lines 108-135) for a freshly constructed block
object (one not aliased inside the chain): run the guard, link the block to the
tip, store it under its new hash, append to its content bucket, move the tip. -/
def insert_block (st : Chain) (b : Block) : InsRes :=
  match insertChecks st.files b with
  | .split => .split st
  | .typeErr => .typeErr
  | .proceed fs =>
    let lb : LBlock := { blk := b, prev := st.latest.bhash }
    .ok { chainMap := upsertV st.chainMap lb.bhash lb
          files := appendBucket fs b.file_hash (contentKey b) lb.bhash
          latest := lb }

/-- A sequence of `insert_block` calls; `none` as soon as one raises. -/
def insertSeq (st : Chain) : List Block → Option Chain
  | [] => some st
  | b :: bs =>
    match insert_block st b with
    | .ok st' => insertSeq st' bs
    | _ => none

/-- `contains_file` (`chain.py` lines 165-180).  `none` models the `TypeError`
raised by `file_blocks["index_all"] + 1` when the record has no `"index_all"`
key (the defaultdict yields `[]`). -/
def contains_file (st : Chain) (h : ByteStr) : Option Bool :=
  match lookupV st.files h with
  | none => some false
  | some fr =>
    match fr.indexAll with
    | some n => some (decide (fr.pyLen = n + 1))
    | none => none

/-- Python `list.insert(i, x)` (clamps the position to the end). -/
def pyInsertAt (l : List α) (i : Nat) (x : α) : List α := l.take i ++ x :: l.drop i

/-- The loop of `get_file_blocks`: walk the content buckets in dict insertion
order, take each bucket's first block hash, and `blocks.insert(block.index, _)`.
`none` models the `IndexError` on an empty bucket or the `KeyError` on a hash
missing from `__chain`. -/
def gfbLoop (cm : CMap) : List (ContentKey × List BlockHash) → List LBlock → Option (List LBlock)
  | [], acc => some acc
  | (_, hs) :: rest, acc =>
    match hs.head? with
    | none => none
    | some h0 =>
      match lookupV cm h0 with
      | none => none
      | some lb => gfbLoop cm rest (pyInsertAt acc lb.blk.index lb)

/-- `get_file_blocks` (`chain.py` lines 182-204).  The `"index_all"` key is
skipped by the `isinstance(_, list)` test, which the model reflects by storing
it outside `contents`. -/
def get_file_blocks (st : Chain) (h : ByteStr) : Option (List LBlock) :=
  match lookupV st.files h with
  | none => some []
  | some fr => gfbLoop st.chainMap fr.contents []

/-- The loop of the `chain` property (`chain.py` lines 97-106): collect blocks
from the tip following `previous_block_hash` until the `bytes(0)` sentinel.
`none` models a `KeyError` (direct `self.__chain[...]` indexing) or a
non-terminating walk (out of fuel). -/
def chainWalk (cm : CMap) : LBlock → Nat → Option (List LBlock)
  | b, fuel =>
    if b.prev = .zero then some [b]
    else
      match fuel with
      | 0 => none
      | fuel' + 1 =>
        match lookupV cm b.prev with
        | none => none
        | some b' => (chainWalk cm b' fuel').map (b :: ·)

/-- The `chain` property: the walk started at `__latest_block`, with enough fuel
for any walk that visits pairwise distinct stored blocks. -/
def chain_list (st : Chain) : Option (List LBlock) :=
  chainWalk st.chainMap st.latest (st.chainMap.length + 1)

/-! ## verify_integrity -/

/-- The `file_block_numbers` dict of `verify_integrity`. -/
abbrev Counters := List (ByteStr × Nat)

/-- One block's effect on `file_block_numbers` (`chain.py` lines 229-239, and
lines 218-220 for the tip): skip single-block files; decrement a live counter
(deleting it at 1 — Python's `v - 1 == 0` test); start a counter at
`index_all - 1` otherwise. -/
def stepCnt (cnt : Counters) (f : ByteStr) (m : Nat) : Counters :=
  if m - 1 > 0 then
    match lookupV cnt f with
    | some v => if v = 1 then eraseV cnt f else upsertV cnt f (v - 1)
    | none => cnt ++ [(f, m - 1)]
  else cnt

/-- The `while` loop of `verify_integrity` (`chain.py` lines 223-246) plus the
final genesis and counters checks.  `some b` is Python returning `b`; `none` is
a walk that does not terminate (out of fuel).  A missing predecessor returns
`False` (the source uses `.get` here, not indexing). -/
def verifyLoop (cm : CMap) : Nat → LBlock → Counters → Option Bool
  | fuel, b, cnt =>
    if b.prev = .zero then
      some (decide (b.bhash = initialLB.bhash) && decide (cnt = []))
    else
      match fuel with
      | 0 => none
      | fuel' + 1 =>
        match lookupV cm b.prev with
        | none => some false
        | some b' => verifyLoop cm fuel' b' (stepCnt cnt b'.blk.file_hash b'.blk.index_all)

/-- `verify_integrity` (`chain.py` lines 206-246): seed the counters from the
tip, then walk.  The fuel bounds any walk through pairwise distinct stored
blocks, so `none` appears exactly when the Python loop revisits a block forever. -/
def verify_integrity (st : Chain) : Option Bool :=
  verifyLoop st.chainMap (st.chainMap.length + 1) st.latest
    (stepCnt [] st.latest.blk.file_hash st.latest.blk.index_all)

/-- Semantic statement that the `verify_integrity` walk never terminates: no
amount of fuel lets the loop reach a `return`. -/
def verifyDiverges (st : Chain) : Prop :=
  ∀ fuel, verifyLoop st.chainMap fuel st.latest
    (stepCnt [] st.latest.blk.file_hash st.latest.blk.index_all) = none

/-! ## merge_blocks -/

/-- State threaded through the first loop of `merge_blocks` (`chain.py` lines
289-300): the evolving `__chain` and `__files`, `added_blocks` in append order,
and `starting_conflicted_block`. -/
structure ScanAcc where
  cm : CMap
  fs : Files
  addedRev : List LBlock
  start : Option LBlock
deriving DecidableEq

/-- The first loop of `merge_blocks`, already applied to `reversed(new_blocks)`:
skip blocks whose hash is present; otherwise store the block verbatim (its
`previous_block_hash` is kept), append its hash to the content bucket, overwrite
the file's `index_all`, and remember the predecessor as the fork point whenever
it is locally known. -/
def mergeScan (acc : ScanAcc) : List LBlock → ScanAcc
  | [] => acc
  | lb :: rest =>
    if (lookupV acc.cm lb.bhash).isSome then mergeScan acc rest
    else
      let cm' := upsertV acc.cm lb.bhash lb
      let fs' := setIndexAll (appendBucket acc.fs lb.blk.file_hash (contentKey lb.blk) lb.bhash)
        lb.blk.file_hash lb.blk.index_all
      let start' :=
        match lookupV cm' lb.prev with
        | some s => some s
        | none => acc.start
      mergeScan { cm := cm', fs := fs', addedRev := acc.addedRev ++ [lb], start := start' } rest

/-- Outcome of the conflicted-blocks walk (`chain.py` lines 318-324). -/
inductive CWRes where
  | done : CMap → Files → List LBlock → CWRes
  | crashW : CWRes
  | fuelOutW : CWRes
deriving DecidableEq

/-- The conflicted-blocks walk: from the old tip back to the fork point, deleting
each block from `__chain` (`del`, a `KeyError` when absent) and removing its
hash from its content bucket (`list.remove`, a `ValueError` when absent).
`crashW` models those exceptions, `fuelOutW` a walk that never reaches the fork
point. -/
def conflictWalk (stopHash : BlockHash) : Nat → CMap → Files → LBlock → List LBlock → CWRes
  | fuel, cm, fs, cur, conf =>
    if cur.bhash = stopHash then .done cm fs conf
    else
      match fuel with
      | 0 => .fuelOutW
      | fuel' + 1 =>
        if (lookupV cm cur.bhash).isNone then .crashW
        else
          let cm' := eraseV cm cur.bhash
          match lookupV fs cur.blk.file_hash with
          | none => .crashW
          | some fr =>
            match lookupV fr.contents (contentKey cur.blk) with
            | none => .crashW
            | some hs =>
              if cur.bhash ∈ hs then
                let fs' := upsertV fs cur.blk.file_hash
                  { fr with contents := upsertV fr.contents (contentKey cur.blk) (removeFirst hs cur.bhash) }
                match lookupV cm' cur.prev with
                | none => .crashW
                | some nxt => conflictWalk stopHash fuel' cm' fs' nxt (conf ++ [cur])
              else .crashW

/-- Result of `merge_blocks`.  `crash` is an uncaught exception
(`AttributeError` on a `None` fork point, `IndexError`, `KeyError`,
`ValueError`, or a propagated `insert_block` exception); when the model can
represent the state at the raise it is carried.  `fuelOut` is a
non-terminating walk. -/
inductive MRes where
  | ok : List LBlock → Chain → MRes
  | crash : Option Chain → MRes
  | fuelOut : MRes
deriving DecidableEq

/-- The re-insertion loop at the end of `merge_blocks` (`chain.py` lines
328-331): each conflicted block goes through `insert_block`, which re-links it
on top of the new tip; the re-linked block is appended to `added_blocks`. -/
def reinsertLoop : Chain → List LBlock → List LBlock → MRes
  | st, [], added => .ok added st
  | st, c :: cs, added =>
    match insert_block st c.blk with
    | .ok st' => reinsertLoop st' cs (added ++ [st'.latest])
    | .split st' => .crash (some st')
    | .typeErr => .crash none

/-- `merge_blocks` (`chain.py` lines 274-333).  Note the source reads
`starting_conflicted_block.block_hash` unconditionally after the first loop, so
an empty `new_blocks` list — or one whose blocks are all present — raises
`AttributeError` (`None` has no attribute `block_hash`); the state carried by
`crash` is the state at that raise. -/
def merge_blocks (st : Chain) (new_blocks : List LBlock) (fuel : Nat) : MRes :=
  let acc := mergeScan { cm := st.chainMap, fs := st.files, addedRev := [], start := none }
    new_blocks.reverse
  match acc.start with
  | none => .crash (some { chainMap := acc.cm, files := acc.fs, latest := st.latest })
  | some start =>
    let added := acc.addedRev.reverse
    if start.bhash = st.latest.bhash then
      match added.getLast? with
      | some last => .ok added { chainMap := acc.cm, files := acc.fs, latest := last }
      | none => .ok added { chainMap := acc.cm, files := acc.fs, latest := st.latest }
    else
      match added.getLast? with
      | none => .crash (some { chainMap := acc.cm, files := acc.fs, latest := st.latest })
      | some last =>
        match conflictWalk start.bhash fuel acc.cm acc.fs st.latest [] with
        | .crashW => .crash none
        | .fuelOutW => .fuelOut
        | .done cm' fs' conflicted =>
          reinsertLoop { chainMap := cm', files := fs', latest := last } conflicted.reverse added

/-! ## insert_block called with the tip object itself

Python blocks are mutable objects held by reference.  When `insert_block` is
called with the very object that is the current tip, line 127 sets the object's
`previous_block_hash` to its *own* former `block_hash` and recomputes its hash;
the entry `__chain[old_hash]` still references that same object, so it now shows
the mutated fields.  The model below assumes the tip object is referenced by
`__chain` exactly at its own former hash key — the situation every normal
`insert_block` leaves behind. -/

def insert_block_again (st : Chain) : InsRes :=
  match insertChecks st.files st.latest.blk with
  | .split => .split st
  | .typeErr => .typeErr
  | .proceed fs =>
    let oldH := st.latest.bhash
    let lb : LBlock := { blk := st.latest.blk, prev := oldH }
    .ok { chainMap := upsertV (updIfPresent st.chainMap oldH lb) lb.bhash lb
          files := appendBucket fs st.latest.blk.file_hash (contentKey st.latest.blk) lb.bhash
          latest := lb }

/-! ## Derived notions used by the statements and proofs -/

/-- Link a list of fresh blocks one after another starting from a given
predecessor hash — the linking `insert_block` performs along a run of inserts. -/
def linkAll : BlockHash → List Block → List LBlock
  | _, [] => []
  | p, b :: bs => { blk := b, prev := p } :: linkAll (LBlock.bhash { blk := b, prev := p }) bs

/-- The `__chain` dict entries corresponding to a list of linked blocks in
insertion order. -/
def entriesOf (lbs : List LBlock) : CMap := lbs.map (fun lb => (lb.bhash, lb))

/-- Hash depths of a block list are consecutive starting at `i`; this is what
makes the hashes along an insert-built chain pairwise distinct. -/
def DepthsFrom : Nat → List LBlock → Prop
  | _, [] => True
  | i, lb :: rest => lb.bhash.depth = i ∧ DepthsFrom (i + 1) rest

/-- Last element of a block list (the genesis for the empty list). -/
def lastD : List LBlock → LBlock
  | [] => initialLB
  | [x] => x
  | _ :: y :: rest => lastD (y :: rest)

/-- Shape of every chain built from `Blockchain()` by successful `insert_block`
calls: `__chain` holds exactly the blocks of `lbs` (genesis first) keyed by their
hashes, consecutive blocks are linked, and the tip is the last block. -/
structure ChainShape (st : Chain) (lbs : List LBlock) : Prop where
  ne : lbs ≠ []
  hd : lbs.head? = some initialLB
  linked : List.Chain' (fun a b => b.prev = a.bhash) lbs
  map_eq : st.chainMap = entriesOf lbs
  tip_eq : st.latest = lastD lbs
  depths : DepthsFrom 1 lbs

/-- The pair `verify_integrity` reads off a walked block. -/
def fmOf (lb : LBlock) : ByteStr × Nat := (lb.blk.file_hash, lb.blk.index_all)

/-- The same pair read off an unlinked block. -/
def fmB (b : Block) : ByteStr × Nat := (b.file_hash, b.index_all)

/-- Run the `file_block_numbers` bookkeeping over a sequence of walked blocks. -/
def runCnt (cnt : Counters) (l : List (ByteStr × Nat)) : Counters :=
  l.foldl (fun c p => stepCnt c p.1 p.2) cnt

/-- The effect of one walked block on a single file's counter (absent = `none`). -/
def stepV (v : Option Nat) (m : Nat) : Option Nat :=
  if m - 1 > 0 then
    match v with
    | none => some (m - 1)
    | some k => if k = 1 then none else some (k - 1)
  else v

/-- Run the single-file counter over that file's `index_all` trace. -/
def runV (v : Option Nat) (ms : List Nat) : Option Nat := ms.foldl stepV v

/-- The `index_all` trace a walk sequence contributes to one file. -/
def filterF (l : List (ByteStr × Nat)) (f : ByteStr) : List Nat :=
  l.filterMap (fun p => if p.1 = f then some p.2 else none)

/-! ## Concrete blocks and chains used by individual claims -/

/-- A single block of a file split into three chunks. -/
def c1Block : Block := { file_hash := [1], index_all := 3, chunk := [7], index := 0 }

/-- Fresh chain after inserting only `c1Block`. -/
def c1St : Chain := (insertSeq freshChain [c1Block]).getD freshChain

/-- Both chunks of a two-chunk file. -/
def c1wBs : List Block :=
  [{ file_hash := [1], index_all := 2, chunk := [3], index := 0 },
   { file_hash := [1], index_all := 2, chunk := [4], index := 1 }]

/-- Fresh chain after inserting the complete two-chunk file. -/
def c1wSt : Chain := (insertSeq freshChain c1wBs).getD freshChain

def c2B : Block := { file_hash := [1], index_all := 1, chunk := [], index := 0 }
def c2C : Block := { file_hash := [2], index_all := 1, chunk := [], index := 0 }
def c2D : Block := { file_hash := [3], index_all := 1, chunk := [], index := 0 }
def c2E : Block := { file_hash := [4], index_all := 1, chunk := [], index := 0 }
def c2lbB : LBlock := { blk := c2B, prev := initialLB.bhash }
def c2lbC : LBlock := { blk := c2C, prev := c2lbB.bhash }
def c2lbD : LBlock := { blk := c2D, prev := c2lbB.bhash }
def c2lbE : LBlock := { blk := c2E, prev := c2lbD.bhash }

/-- The conflicted block `C` as re-linked on top of `E` by the merge. -/
def c2lbCRe : LBlock := { blk := c2C, prev := c2lbE.bhash }

/-- The local chain of scenario C2: genesis, B, C. -/
def c2Local : Chain := (insertSeq freshChain [c2B, c2C]).getD freshChain

/-- The chain after `merge_blocks([D, E])` on `c2Local`. -/
def c2Merged : Chain :=
  match merge_blocks c2Local [c2lbD, c2lbE] 10 with
  | .ok _ st => st
  | _ => freshChain

def c4Block : Block := { file_hash := [1], index_all := 1, chunk := [5], index := 0 }
def c4Tip : LBlock := { blk := c4Block, prev := initialLB.bhash }

/-- Fresh chain plus one inserted block; its `chain` list has two elements. -/
def c4St : Chain := (insertSeq freshChain [c4Block]).getD freshChain

def c4mT : Block := { file_hash := [6], index_all := 1, chunk := [], index := 0 }

/-- Fresh chain after inserting `c4mT`; the base for a merge on which the
`chain` property crashes. -/
def c4mBase : Chain := (insertSeq freshChain [c4mT]).getD freshChain

def c4mlbT : LBlock := { blk := c4mT, prev := initialLB.bhash }

/-- Incoming block linked to the genesis. -/
def c4mX : LBlock :=
  { blk := { file_hash := [7], index_all := 1, chunk := [], index := 0 }
    prev := initialLB.bhash }

/-- Incoming block linked to the local tip `c4mT`. -/
def c4mY : LBlock :=
  { blk := { file_hash := [8], index_all := 1, chunk := [], index := 0 }
    prev := c4mlbT.bhash }

/-- The local tip as re-linked by the merge on top of `c4mY`. -/
def c4mTRe : LBlock := { blk := c4mT, prev := c4mY.bhash }

/-- The chain after `merge_blocks([c4mX, c4mY])` on `c4mBase`: the merge
succeeds, but `c4mY` still points at the tip's *former* hash, whose entry the
conflicted-block walk deleted, so the `chain` walk hits a missing key. -/
def c4mAfter : Chain :=
  match merge_blocks c4mBase [c4mX, c4mY] 10 with
  | .ok _ st => st
  | _ => freshChain

/-- Three chunks of one file inserted in index order 2, 1, 0. -/
def c5Bs : List Block :=
  [{ file_hash := [9], index_all := 3, chunk := [2], index := 2 },
   { file_hash := [9], index_all := 3, chunk := [1], index := 1 },
   { file_hash := [9], index_all := 3, chunk := [0], index := 0 }]

def c5St : Chain := (insertSeq freshChain c5Bs).getD freshChain

def c7b1 : Block := { file_hash := [3], index_all := 3, chunk := [10], index := 0 }
def c7b2 : Block := { file_hash := [3], index_all := 5, chunk := [11], index := 1 }
def c7lb1 : LBlock := { blk := c7b1, prev := initialLB.bhash }
def c7lb2 : LBlock := { blk := c7b2, prev := c7lb1.bhash }

/-- Chain holding two blocks of the same file with `index_all` 3 and 5. -/
def c7St : Chain := (insertSeq freshChain [c7b1, c7b2]).getD freshChain

/-- Chain after the first insert of `c7b1`, used to exercise the second insert. -/
def c7St1 : Chain := (insertSeq freshChain [c7b1]).getD freshChain

/-- The file record of file `[3]` after the first insert. -/
def c7Fr : FileRec := (lookupV c7St1.files [3]).getD { indexAll := none, contents := [] }

def c8Block : Block := { file_hash := [2], index_all := 1, chunk := [4], index := 0 }

/-- Fresh chain after inserting `c8Block` once. -/
def c8Before : Chain := (insertSeq freshChain [c8Block]).getD freshChain

/-- The chain after `insert_block` is called again with the tip object itself. -/
def c8After : Chain :=
  match insert_block_again c8Before with
  | .ok st => st
  | _ => freshChain

/-- The file record of `c8Block`'s file before the second insert. -/
def c8Fr : FileRec :=
  (lookupV c8Before.files [2]).getD { indexAll := none, contents := [] }

def c10a : Block := { file_hash := [5], index_all := 2, chunk := [], index := 0 }
def c10b : Block := { file_hash := [5], index_all := 1, chunk := [0], index := 0 }

/-! # Theorems

First the library of small facts about the dict model and the hash model, then
the claim theorems. -/

theorem BlockHash.dig_ne_prev (c : ByteStr) (p : BlockHash) : BlockHash.dig c p ≠ p := by
  intro h
  have h2 := congrArg BlockHash.depth h
  simp only [BlockHash.depth] at h2
  omega

theorem lookupV_upsertV_self (l : List (κ × α)) (k : κ) (v : α) :
    lookupV (upsertV l k v) k = some v := by
  induction l with
  | nil => simp [upsertV, lookupV]
  | cons p rest ih =>
    obtain ⟨k0, v0⟩ := p
    by_cases h : k = k0 <;> simp [upsertV, lookupV, h, ih]

theorem lookupV_upsertV_ne (l : List (κ × α)) (k k' : κ) (v : α) (h : k' ≠ k) :
    lookupV (upsertV l k v) k' = lookupV l k' := by
  induction l with
  | nil => simp [upsertV, lookupV, h]
  | cons p rest ih =>
    obtain ⟨k0, v0⟩ := p
    by_cases h0 : k = k0
    · subst h0
      simp [upsertV, lookupV, h]
    · by_cases h1 : k' = k0 <;> simp [upsertV, lookupV, h0, h1, ih]

theorem upsertV_of_lookup_none (l : List (κ × α)) (k : κ) (v : α)
    (h : lookupV l k = none) : upsertV l k v = l ++ [(k, v)] := by
  induction l with
  | nil => simp [upsertV]
  | cons p rest ih =>
    obtain ⟨k0, v0⟩ := p
    by_cases h0 : k = k0
    · simp [lookupV, h0] at h
    · simp [lookupV, h0] at h
      simp [upsertV, h0, ih h]

theorem length_upsertV_of_lookup_some (l : List (κ × α)) (k : κ) (v : α)
    (h : (lookupV l k).isSome) : (upsertV l k v).length = l.length := by
  induction l with
  | nil => simp [lookupV] at h
  | cons p rest ih =>
    obtain ⟨k0, v0⟩ := p
    by_cases h0 : k = k0
    · simp [upsertV, h0]
    · simp [lookupV, h0] at h
      simp [upsertV, h0, ih h]

theorem lookupV_append (l1 l2 : List (κ × α)) (k : κ) :
    lookupV (l1 ++ l2) k =
      match lookupV l1 k with
      | some v => some v
      | none => lookupV l2 k := by
  induction l1 with
  | nil => simp [lookupV]
  | cons p rest ih =>
    obtain ⟨k0, v0⟩ := p
    by_cases h0 : k = k0 <;> simp [lookupV, h0, ih]

theorem lookupV_eraseV_self (l : List (κ × α)) (k : κ) (h : KeysNodup l) :
    lookupV (eraseV l k) k = none := by
  induction l with
  | nil => simp [eraseV, lookupV]
  | cons p rest ih =>
    obtain ⟨k0, v0⟩ := p
    unfold KeysNodup at h
    simp only [List.map_cons, List.nodup_cons] at h
    by_cases h0 : k = k0
    · subst h0
      cases hr : lookupV rest k with
      | none => simp [eraseV, hr]
      | some v =>
        exfalso
        apply h.1
        clear ih h
        induction rest with
        | nil => simp [lookupV] at hr
        | cons q qs ihq =>
          obtain ⟨k1, v1⟩ := q
          by_cases h1 : k = k1
          · subst h1
            simp
          · simp [lookupV, h1] at hr
            simp [ihq hr]
    · simp [eraseV, lookupV, h0]
      exact ih h.2

theorem lookupV_eraseV_ne (l : List (κ × α)) (k k' : κ) (h : k' ≠ k) :
    lookupV (eraseV l k) k' = lookupV l k' := by
  induction l with
  | nil => simp [eraseV]
  | cons p rest ih =>
    obtain ⟨k0, v0⟩ := p
    by_cases h0 : k = k0
    · subst h0
      simp [eraseV, lookupV, h]
    · by_cases h1 : k' = k0 <;> simp [eraseV, lookupV, h0, h1, ih]

theorem lookupV_updIfPresent_self (l : List (κ × α)) (k : κ) (v : α)
    (h : (lookupV l k).isSome) : lookupV (updIfPresent l k v) k = some v := by
  induction l with
  | nil => simp [lookupV] at h
  | cons p rest ih =>
    obtain ⟨k0, v0⟩ := p
    by_cases h0 : k = k0
    · simp [updIfPresent, lookupV, h0]
    · simp [lookupV, h0] at h
      simp [updIfPresent, lookupV, h0, ih h]

theorem lookupV_eq_none_iff (l : List (κ × α)) (k : κ) :
    lookupV l k = none ↔ k ∉ l.map Prod.fst := by
  induction l with
  | nil => simp [lookupV]
  | cons p rest ih =>
    obtain ⟨k0, v0⟩ := p
    by_cases h0 : k = k0 <;> simp [lookupV, h0, ih]

/-- The `while` loop of `verify_integrity` never returns once it reaches a block
that is stored under the very hash its own `previous_block_hash` points at. -/
theorem verifyLoop_stuck (cm : CMap) (lb : LBlock) (h0 : lb.prev ≠ .zero)
    (h1 : lookupV cm lb.prev = some lb) :
    ∀ fuel cnt, verifyLoop cm fuel lb cnt = none := by
  intro fuel
  induction fuel with
  | zero =>
    intro cnt
    unfold verifyLoop
    simp [h0]
  | succ n ih =>
    intro cnt
    unfold verifyLoop
    simp only [if_neg h0, h1]
    exact ih _

/-- The guard of `insert_block` raises `FileBlockSplitChangedException` exactly
when the file record exists, the content hash is a new key, and the recorded
`index_all` equals the number of distinct content entries (the file is
complete): `file_blocks["index_all"] + 1 == len(file_blocks)` with the
`"index_all"` key itself counted by `len`. -/
theorem insertChecks_split_iff (fs : Files) (b : Block) :
    insertChecks fs b = .split ↔
      ∃ fr, lookupV fs b.file_hash = some fr ∧
        lookupV fr.contents (contentKey b) = none ∧
        fr.indexAll = some fr.contents.length := by
  constructor
  · intro h
    unfold insertChecks at h
    split at h
    · rename_i fr hfr
      split at h
      · rename_i hlen
        split at h
        · exact absurd h (by simp)
        · rename_i hc
          split at h
          · exact absurd h (by simp)
          · rename_i n hia
            split at h
            · rename_i he
              have hp : fr.pyLen = fr.contents.length + 1 := by
                simp [FileRec.pyLen, hia]
              refine ⟨fr, hfr, Option.not_isSome_iff_eq_none.mp hc, ?_⟩
              rw [hia]
              have : n = fr.contents.length := by omega
              rw [this]
            · exact absurd h (by simp)
      · exact absurd h (by simp)
    · exact absurd h (by simp)
  · rintro ⟨fr, hfr, hc, hia⟩
    have hp : fr.pyLen = fr.contents.length + 1 := by
      simp [FileRec.pyLen, hia]
    unfold insertChecks
    rw [hfr]
    simp [hc, hia, hp]

/-! ## Claim theorems -/

/-- Claim C6 (confirmed): `insert_block(new)` raises `FileBlockSplitChanged` if
and only if the file record for `new.file_hash` already exists, `new`'s content
hash is not among its recorded content hashes, and the number of distinct
content entries recorded equals the recorded `index_all` (the file is
complete); the state the exception leaves behind is exactly the pre-call state
(the `.split` result carries it). -/
theorem insert_block_split_iff (st : Chain) (b : Block) :
    insert_block st b = .split st ↔
      ∃ fr, lookupV st.files b.file_hash = some fr ∧
        lookupV fr.contents (contentKey b) = none ∧
        fr.indexAll = some fr.contents.length := by
  rw [← insertChecks_split_iff st.files b]
  unfold insert_block
  cases h : insertChecks st.files b <;> simp

/-- Claim C9 (code_bug): on a chain built with no seed, `contains_file` applied
to the genesis file hash (the empty byte string) does not return a boolean: the
record exists but carries no `"index_all"` key, so Python evaluates `[] + 1`
and raises `TypeError` (modelled by `none`).  The record does exist. -/
theorem contains_file_genesis_type_error :
    contains_file freshChain [] = none ∧ (lookupV freshChain.files []).isSome := by
  constructor
  · rfl
  · rfl

/-- Claim C10 (confirmed): two valid blocks with the same `file_hash` and
`index` but different `(index_all, chunk)` — `(index_all = 2, chunk = b"")` and
`(index_all = 1, chunk = b"\x00")` — produce the identical content-hash input,
because `file_hash + bytes(index_all) + chunk + bytes(index)` concatenates
zero-filled strings without delimiters; hence their sha256 content hashes
coincide. -/
theorem content_hash_collision :
    c10a.valid ∧ c10b.valid ∧ c10a ≠ c10b ∧
    c10a.file_hash = c10b.file_hash ∧ c10a.index = c10b.index ∧
    c10a.index_all ≠ c10b.index_all ∧ c10a.chunk ≠ c10b.chunk ∧
    contentKey c10a = contentKey c10b := by
  refine ⟨by decide, by decide, by decide, by decide, by decide, by decide, by decide, by decide⟩

/-- Claim C5 (code_bug): `get_file_blocks` on a complete file whose three
distinct chunks were inserted in index order 2, 1, 0 returns the blocks in
index order `[0, 2, 1]`, not ascending: `blocks.insert(block.index, block)`
clamps to the end of the partially built list, so only insertion in ascending
index order yields a sorted result.  The file is complete
(`contains_file` is true), yet the output violates the claimed ordering. -/
theorem get_file_blocks_out_of_order :
    insertSeq freshChain c5Bs = some c5St ∧
    contains_file c5St [9] = some true ∧
    (get_file_blocks c5St [9]).map (List.map (fun lb => lb.blk.index)) = some [0, 2, 1] := by
  refine ⟨by decide, by decide, by decide⟩

/-- Claim C1, counterexample: a fresh chain plus one successful `insert_block`
of a single block with `index_all = 3` (a valid block, no other block of that
file) makes `verify_integrity()` return `False`, not `True`: the walk counts
one block for a file expecting three.  The repository's own test
`test_verify_integrity_missing_file_blocks` asserts exactly this `False`. -/
theorem verify_false_after_lone_block_of_split_file :
    c1Block.valid ∧ insertSeq freshChain [c1Block] = some c1St ∧
    verify_integrity c1St = some false := by
  refine ⟨by decide, by decide, by decide⟩

/-- Claim C2 (confirmed): with the local chain genesis, B, C (tip C) and
`merge_blocks([D, E])` where `D.previous_block_hash = B.block_hash` and
`E.previous_block_hash = D.block_hash`, the call returns `[D, E, C]` with `C`
re-linked on top of `E`, the new tip is that re-linked `C`, walking
`previous_block_hash` from the tip yields C, E, D, B, genesis, and
`verify_integrity()` returns true.  Instantiated with four distinct
single-chunk files, as in the source's `test_merge_blocks_conflict_1`. -/
theorem merge_conflict_scenario :
    insertSeq freshChain [c2B, c2C] = some c2Local ∧
    c2Local.latest = c2lbC ∧
    merge_blocks c2Local [c2lbD, c2lbE] 10 = .ok [c2lbD, c2lbE, c2lbCRe] c2Merged ∧
    c2Merged.latest = c2lbCRe ∧
    chain_list c2Merged = some [c2lbCRe, c2lbE, c2lbD, c2lbB, initialLB] ∧
    verify_integrity c2Merged = some true := by
  refine ⟨by decide, by decide, by decide, by decide, by decide, by decide⟩

/-- Claim C3, counterexample: `merge_blocks` applied to the empty list — or to a
list all of whose blocks are already present, such as `[genesis]` — does not
return an empty list: `starting_conflicted_block` is still `None` when line 305
reads `.block_hash` from it, so the call raises `AttributeError`.  The carried
state shows nothing was mutated before the raise. -/
theorem merge_empty_and_all_present_raise :
    merge_blocks freshChain [] 5 = .crash (some freshChain) ∧
    merge_blocks freshChain [initialLB] 5 = .crash (some freshChain) := by
  refine ⟨by decide, by decide⟩

/-- Claim C7, counterexample: two successful `insert_block` calls put two blocks
of the same file `[3]` carrying `index_all = 3` and `index_all = 5` into
`blocks_by_hash`, while the file is present in `files`; the claimed invariant
fails on a reachable chain. -/
theorem mixed_index_all_reachable :
    insertSeq freshChain [c7b1, c7b2] = some c7St ∧
    (lookupV c7St.files [3]).isSome ∧
    lookupV c7St.chainMap c7lb1.bhash = some c7lb1 ∧
    lookupV c7St.chainMap c7lb2.bhash = some c7lb2 ∧
    c7lb1.blk.file_hash = c7lb2.blk.file_hash ∧
    c7lb1.blk.index_all ≠ c7lb2.blk.index_all := by
  refine ⟨by decide, by decide, by decide, by decide, by decide, by decide⟩

/-- Claim C8, counterexample: after inserting block A on a fresh chain,
`verify_integrity` is true; calling `insert_block` a second time with the very
same (tip) object succeeds, but afterwards `verify_integrity` no longer
terminates — the mutated object's `previous_block_hash` is its own former hash,
and `__chain[former hash]` is that same object, so the walk loops forever. -/
theorem double_insert_same_object_breaks_verify :
    insertSeq freshChain [c8Block] = some c8Before ∧
    verify_integrity c8Before = some true ∧
    insert_block_again c8Before = .ok c8After ∧
    verifyDiverges c8After := by
  refine ⟨by decide, by decide, by decide, ?_⟩
  intro fuel
  exact verifyLoop_stuck c8After.chainMap c8After.latest (by decide) (by decide) fuel _

/-- Claim C4, counterexample: on a fresh chain with one inserted block the
`chain` property returns `[tip, genesis]` — its first element is the tip and
its last the genesis, the reverse of the claimed oldest-to-newest order (the
loop appends starting from `__latest_block` and never reverses). -/
theorem chain_list_starts_at_tip_not_genesis :
    insertSeq freshChain [c4Block] = some c4St ∧
    c4St.latest = c4Tip ∧
    chain_list c4St = some [c4Tip, initialLB] ∧
    c4Tip ≠ initialLB := by
  refine ⟨by decide, by decide, by decide, by decide⟩

/-- A key that is looked up successfully lives in a non-empty list. -/
theorem lookupV_isSome_ne_nil (l : List (κ × α)) (k : κ)
    (h : (lookupV l k).isSome) : l ≠ [] := by
  intro hl
  rw [hl] at h
  simp [lookupV] at h

/-- The first loop of `merge_blocks` is the identity when every incoming block
hash is already a key of `__chain`. -/
theorem mergeScan_skip_all (l : List LBlock) : ∀ acc : ScanAcc,
    (∀ lb ∈ l, (lookupV acc.cm lb.bhash).isSome) → mergeScan acc l = acc := by
  induction l with
  | nil => intro acc _; rfl
  | cons lb rest ih =>
    intro acc h
    unfold mergeScan
    rw [if_pos (h lb (by simp))]
    exact ih acc (fun x hx => h x (by simp [hx]))

/-- Claim C3 (amended): for every chain and every `new_blocks` list all of whose
blocks are already present in `blocks_by_hash` — in particular the empty list —
`merge_blocks` does not return an empty list: it raises `AttributeError`
(reading `.block_hash` from the still-`None` fork point), leaving `__chain`,
`__files` and the tip exactly as they were (the carried crash state is the
pre-call state). -/
theorem merge_without_new_blocks_raises (st : Chain) (bs : List LBlock) (fuel : Nat)
    (h : ∀ lb ∈ bs, (lookupV st.chainMap lb.bhash).isSome) :
    merge_blocks st bs fuel = .crash (some st) := by
  unfold merge_blocks
  rw [mergeScan_skip_all bs.reverse _ (fun lb hm => h lb (List.mem_reverse.mp hm))]

/-- Witness for C3's amended claim at a concrete input: merging `[genesis]`
into a fresh chain (the genesis is already present) raises with the chain
unchanged. -/
theorem merge_without_new_blocks_raises_witness :
    merge_blocks freshChain [initialLB] 3 = .crash (some freshChain) :=
  merge_without_new_blocks_raises freshChain [initialLB] 3 (by decide)

/-- Claim C7 (amended): `insert_block` never compares the incoming block's
`index_all` with the recorded one — whenever the file record exists and either
the content hash is already recorded or the recorded `index_all` differs from
the number of distinct content entries (the file is not complete), the insert
succeeds, whatever `index_all` the new block carries.  Chains holding blocks of
one file with different `index_all` values are therefore reachable. -/
theorem insert_accepts_any_index_all (st : Chain) (b : Block) (fr : FileRec)
    (hfr : lookupV st.files b.file_hash = some fr)
    (h : (lookupV fr.contents (contentKey b)).isSome ∨
         ∃ n, fr.indexAll = some n ∧ n ≠ fr.contents.length) :
    ∃ st', insert_block st b = .ok st' := by
  have hchk : insertChecks st.files b = .proceed st.files := by
    unfold insertChecks
    rw [hfr]
    rcases h with hc | ⟨n, hia, hne⟩
    · have hnil : fr.contents ≠ [] := lookupV_isSome_ne_nil _ _ hc
      have hlen : fr.pyLen ≠ 0 := by
        have h1 : 0 < fr.contents.length := List.length_pos.mpr hnil
        have h2 : fr.contents.length ≤ fr.pyLen := by
          unfold FileRec.pyLen
          split <;> omega
        omega
      simp [hlen, hc]
    · have hp : fr.pyLen = fr.contents.length + 1 := by
        simp [FileRec.pyLen, hia]
      have hlen : fr.pyLen ≠ 0 := by omega
      by_cases hc : (lookupV fr.contents (contentKey b)).isSome
      · simp [hlen, hc]
      · have hne2 : ¬ (n + 1 = fr.pyLen) := by omega
        simp [hlen, hc, hia, hne2]
  unfold insert_block
  rw [hchk]
  exact ⟨_, rfl⟩

/-- Witness for C7's amended claim: the second insert of the counterexample —
a block with `index_all = 5` for a file recorded with `index_all = 3` —
succeeds. -/
theorem insert_accepts_any_index_all_witness :
    ∃ st', insert_block c7St1 c7b2 = .ok st' :=
  insert_accepts_any_index_all c7St1 c7b2 c7Fr (by decide)
    (Or.inr ⟨3, by decide, by decide⟩)

/-- Claim C8 (amended): calling `insert_block` a second time with the very same
block object `A` that is the current tip is tolerated in that no exception is
raised and `contains_file` afterwards returns the same answer for every file
hash; but the call mutates `A` so that its `previous_block_hash` is its own
former hash, and since `blocks_by_hash[former hash]` is that same object, the
`verify_integrity` walk never terminates instead of returning its previous
result.  The hypotheses say the tip object is stored under its own hash and its
content hash is recorded — the situation every earlier `insert_block` of `A`
leaves behind. -/
theorem appendBucket_existing (fs : Files) (f : ByteStr) (c : ContentKey) (h : BlockHash)
    (fr : FileRec) (hs : List BlockHash)
    (hfr : lookupV fs f = some fr) (hc2 : lookupV fr.contents c = some hs) :
    appendBucket fs f c h =
      upsertV fs f (FileRec.mk fr.indexAll (upsertV fr.contents c (hs ++ [h]))) := by
  unfold appendBucket
  rw [hfr]
  simp only [hc2]

/-- Claim C8 (amended): calling `insert_block` a second time with the very same
block object `A` that is the current tip is tolerated in that no exception is
raised and `contains_file` afterwards returns the same answer for every file
hash; but the call mutates `A` so that its `previous_block_hash` is its own
former hash, and since `blocks_by_hash[former hash]` is that same object, the
`verify_integrity` walk never terminates instead of returning its previous
result.  The hypotheses say the tip object is stored under its own hash and its
content hash is recorded — the situation every earlier `insert_block` of `A`
leaves behind. -/
theorem insert_again_keeps_contains_but_diverges
    (st st' : Chain) (fr : FileRec)
    (hmap : lookupV st.chainMap st.latest.bhash = some st.latest)
    (hfr : lookupV st.files st.latest.blk.file_hash = some fr)
    (hc : (lookupV fr.contents (contentKey st.latest.blk)).isSome)
    (hok : insert_block_again st = .ok st') :
    (∀ h, contains_file st' h = contains_file st h) ∧ verifyDiverges st' := by
  have hnil : fr.contents ≠ [] := lookupV_isSome_ne_nil _ _ hc
  have hlen : fr.pyLen ≠ 0 := by
    have h1 : 0 < fr.contents.length := List.length_pos.mpr hnil
    have h2 : fr.contents.length ≤ fr.pyLen := by
      unfold FileRec.pyLen
      split <;> omega
    omega
  have hchk : insertChecks st.files st.latest.blk = .proceed st.files := by
    unfold insertChecks
    rw [hfr]
    simp [hlen, hc]
  obtain ⟨hs, hc2⟩ := Option.isSome_iff_exists.mp hc
  unfold insert_block_again at hok
  rw [hchk] at hok
  have hst' : st' =
      { chainMap := upsertV (updIfPresent st.chainMap st.latest.bhash
          { blk := st.latest.blk, prev := st.latest.bhash })
          (LBlock.bhash { blk := st.latest.blk, prev := st.latest.bhash })
          { blk := st.latest.blk, prev := st.latest.bhash }
        files := appendBucket st.files st.latest.blk.file_hash (contentKey st.latest.blk)
          (LBlock.bhash { blk := st.latest.blk, prev := st.latest.bhash })
        latest := { blk := st.latest.blk, prev := st.latest.bhash } } := by
    injection hok.symm
  have hap := appendBucket_existing st.files st.latest.blk.file_hash
    (contentKey st.latest.blk)
    (LBlock.bhash { blk := st.latest.blk, prev := st.latest.bhash }) fr hs hfr hc2
  have hplen : (FileRec.mk fr.indexAll (upsertV fr.contents (contentKey st.latest.blk)
      (hs ++ [LBlock.bhash { blk := st.latest.blk, prev := st.latest.bhash }]))).pyLen =
      fr.pyLen := by
    unfold FileRec.pyLen
    simp only
    rw [length_upsertV_of_lookup_some _ _ _ hc]
  constructor
  · intro h
    rw [hst']
    unfold contains_file
    simp only [hap]
    by_cases hh : h = st.latest.blk.file_hash
    · subst hh
      rw [lookupV_upsertV_self, hfr]
      simp [hplen]
    · rw [lookupV_upsertV_ne _ _ _ _ hh]
  · have hne : st.latest.bhash ≠
        LBlock.bhash { blk := st.latest.blk, prev := st.latest.bhash } := by
      intro hcontra
      exact BlockHash.dig_ne_prev (contentInput st.latest.blk) st.latest.bhash hcontra.symm
    intro fuel
    rw [hst']
    refine verifyLoop_stuck _ _ ?_ ?_ fuel _
    · show st.latest.bhash ≠ .zero
      simp [LBlock.bhash]
    · show lookupV (upsertV (updIfPresent st.chainMap st.latest.bhash
        { blk := st.latest.blk, prev := st.latest.bhash })
        (LBlock.bhash { blk := st.latest.blk, prev := st.latest.bhash })
        { blk := st.latest.blk, prev := st.latest.bhash }) st.latest.bhash =
        some { blk := st.latest.blk, prev := st.latest.bhash }
      rw [lookupV_upsertV_ne _ _ _ _ hne]
      exact lookupV_updIfPresent_self _ _ _ (by simp [hmap])

/-- Witness for C8's amended claim at the concrete chain of the counterexample:
the second insert of the tip object keeps `contains_file` unchanged for the
block's file while the verify walk diverges. -/
theorem insert_again_keeps_contains_but_diverges_witness :
    contains_file c8After [2] = contains_file c8Before [2] ∧ verifyDiverges c8After := by
  have h := insert_again_keeps_contains_but_diverges c8Before c8After c8Fr
    (by decide) (by decide) (by decide) (by decide)
  exact ⟨h.1 [2], h.2⟩

/-! ## The shape of insert-built chains -/

theorem linkAll_blks (bs : List Block) : ∀ p, (linkAll p bs).map LBlock.blk = bs := by
  induction bs with
  | nil => intro p; rfl
  | cons b rest ih => intro p; simp [linkAll, ih]

theorem lastD_append_single (l : List LBlock) : ∀ x, lastD (l ++ [x]) = x := by
  induction l with
  | nil => intro x; rfl
  | cons a l ih =>
    intro x
    cases l with
    | nil => rfl
    | cons b l' => exact ih x

theorem getLast?_eq_lastD (l : List LBlock) (h : l ≠ []) : l.getLast? = some (lastD l) := by
  induction l with
  | nil => exact absurd rfl h
  | cons a l ih =>
    cases l with
    | nil => rfl
    | cons b l' =>
      rw [List.getLast?_cons_cons]
      exact ih (by simp)

theorem lastD_mem (l : List LBlock) (h : l ≠ []) : lastD l ∈ l := by
  induction l with
  | nil => exact absurd rfl h
  | cons a l ih =>
    cases l with
    | nil => simp [lastD]
    | cons b l' =>
      have := ih (by simp)
      simp [lastD, this]

theorem head?_append_left (l1 l2 : List LBlock) (h : l1 ≠ []) :
    (l1 ++ l2).head? = l1.head? := by
  cases l1 with
  | nil => exact absurd rfl h
  | cons a l => rfl

theorem DepthsFrom_append (l : List LBlock) : ∀ (i : Nat) (x : LBlock),
    DepthsFrom i (l ++ [x]) ↔ (DepthsFrom i l ∧ x.bhash.depth = i + l.length) := by
  induction l with
  | nil => intro i x; simp [DepthsFrom]
  | cons y rest ih =>
    intro i x
    show (y.bhash.depth = i ∧ DepthsFrom (i + 1) (rest ++ [x])) ↔ _
    rw [ih (i + 1) x]
    show _ ↔ (y.bhash.depth = i ∧ DepthsFrom (i + 1) rest) ∧
      x.bhash.depth = i + (rest.length + 1)
    constructor
    · rintro ⟨h1, h2, h3⟩
      exact ⟨⟨h1, h2⟩, by omega⟩
    · rintro ⟨⟨h1, h2⟩, h3⟩
      exact ⟨h1, h2, by omega⟩

theorem DepthsFrom_mem (l : List LBlock) : ∀ (i : Nat) (lb : LBlock),
    DepthsFrom i l → lb ∈ l → i ≤ lb.bhash.depth ∧ lb.bhash.depth < i + l.length := by
  induction l with
  | nil =>
    intro i lb _ hm
    simp at hm
  | cons y rest ih =>
    intro i lb hd hm
    obtain ⟨h1, h2⟩ := hd
    rcases List.mem_cons.mp hm with rfl | hm'
    · simp only [List.length_cons]
      omega
    · have := ih (i + 1) lb h2 hm'
      simp only [List.length_cons]
      omega

theorem DepthsFrom_lastD (l : List LBlock) : ∀ i, DepthsFrom i l → l ≠ [] →
    (lastD l).bhash.depth = i + l.length - 1 := by
  induction l with
  | nil =>
    intro i _ h
    exact absurd rfl h
  | cons y rest ih =>
    intro i hd _
    obtain ⟨h1, h2⟩ := hd
    cases rest with
    | nil => simpa [lastD] using h1
    | cons z zs =>
      have := ih (i + 1) h2 (by simp)
      simp only [lastD, List.length_cons] at this ⊢
      omega

theorem lookupV_entriesOf (l : List LBlock) : ∀ (i : Nat) (lb : LBlock),
    DepthsFrom i l → lb ∈ l → lookupV (entriesOf l) lb.bhash = some lb := by
  induction l with
  | nil =>
    intro i lb _ hm
    simp at hm
  | cons y rest ih =>
    intro i lb hd hm
    obtain ⟨h1, h2⟩ := hd
    rcases List.mem_cons.mp hm with rfl | hm'
    · simp [entriesOf, lookupV]
    · have hne : lb.bhash ≠ y.bhash := by
        intro he
        have hb := DepthsFrom_mem rest (i + 1) lb h2 hm'
        rw [he, h1] at hb
        omega
      simp only [entriesOf, List.map_cons, lookupV, if_neg hne]
      exact ih (i + 1) lb h2 hm'

theorem lookupV_entriesOf_none (l : List LBlock) : ∀ (i : Nat) (k : BlockHash),
    DepthsFrom i l → i + l.length ≤ k.depth → lookupV (entriesOf l) k = none := by
  induction l with
  | nil => intro i k _ _; rfl
  | cons y rest ih =>
    intro i k hd hk
    obtain ⟨h1, h2⟩ := hd
    simp only [List.length_cons] at hk
    have hne : k ≠ y.bhash := by
      intro he
      rw [he, h1] at hk
      omega
    simp only [entriesOf, List.map_cons, lookupV, if_neg hne]
    exact ih (i + 1) k h2 (by omega)

theorem freshChain_shape : ChainShape freshChain [initialLB] := by
  refine ⟨by simp, rfl, List.chain'_singleton _, rfl, rfl, ?_⟩
  exact ⟨by decide, trivial⟩

/-- One successful `insert_block` extends the shape of the chain by the block
linked onto the old tip: its hash is fresh (its depth exceeds every stored
depth), so the dict assignment appends a new entry. -/
theorem insert_ok_shape (st : Chain) (lbs : List LBlock) (b : Block) (st' : Chain)
    (hs : ChainShape st lbs) (hok : insert_block st b = .ok st') :
    ChainShape st' (lbs ++ [{ blk := b, prev := st.latest.bhash }]) := by
  obtain ⟨hne, hhd, hlink, hmap, htip, hdep⟩ := hs
  unfold insert_block at hok
  cases hchk : insertChecks st.files b with
  | split => rw [hchk] at hok; exact absurd hok (by simp)
  | typeErr => rw [hchk] at hok; exact absurd hok (by simp)
  | proceed fs =>
    rw [hchk] at hok
    have hst' : st' =
        { chainMap := upsertV st.chainMap
            (LBlock.bhash { blk := b, prev := st.latest.bhash })
            { blk := b, prev := st.latest.bhash }
          files := appendBucket fs b.file_hash (contentKey b)
            (LBlock.bhash { blk := b, prev := st.latest.bhash })
          latest := { blk := b, prev := st.latest.bhash } } := by
      injection hok.symm
    have hdepth_tip : (lastD lbs).bhash.depth = lbs.length := by
      have := DepthsFrom_lastD lbs 1 hdep hne
      omega
    have hdepth_new : (LBlock.bhash { blk := b, prev := st.latest.bhash }).depth =
        lbs.length + 1 := by
      rw [htip]
      show ((lastD lbs).bhash.depth) + 1 = lbs.length + 1
      omega
    have hfresh : lookupV (entriesOf lbs)
        (LBlock.bhash { blk := b, prev := st.latest.bhash }) = none := by
      refine lookupV_entriesOf_none lbs 1 _ hdep ?_
      omega
    have hmap' : st'.chainMap =
        entriesOf (lbs ++ [{ blk := b, prev := st.latest.bhash }]) := by
      rw [hst']
      show upsertV st.chainMap _ _ = _
      rw [hmap, upsertV_of_lookup_none _ _ _ hfresh]
      simp [entriesOf]
    refine ⟨by simp, ?_, ?_, hmap', ?_, ?_⟩
    · rw [head?_append_left _ _ hne]
      exact hhd
    · rw [List.chain'_append]
      refine ⟨hlink, List.chain'_singleton _, ?_⟩
      intro x hx y hy
      rw [getLast?_eq_lastD lbs hne] at hx
      simp only [Option.mem_def, Option.some.injEq] at hx
      simp only [List.head?_cons, Option.mem_def, Option.some.injEq] at hy
      subst hx
      subst hy
      show st.latest.bhash = (lastD lbs).bhash
      rw [htip]
    · rw [hst']
      show _ = lastD (lbs ++ [_])
      rw [lastD_append_single]
    · rw [DepthsFrom_append]
      exact ⟨hdep, by omega⟩

/-- A run of successful `insert_block` calls extends the shape by the incoming
blocks, each linked onto its predecessor. -/
theorem insertSeq_shape : ∀ (bs : List Block) (st0 : Chain) (lbs0 : List LBlock) (st : Chain),
    ChainShape st0 lbs0 → insertSeq st0 bs = some st →
    ChainShape st (lbs0 ++ linkAll st0.latest.bhash bs) := by
  intro bs
  induction bs with
  | nil =>
    intro st0 lbs0 st hs h
    unfold insertSeq at h
    injection h with h
    subst h
    simpa [linkAll] using hs
  | cons b rest ih =>
    intro st0 lbs0 st hs h
    unfold insertSeq at h
    cases hins : insert_block st0 b with
    | ok st1 =>
      rw [hins] at h
      have hs1 := insert_ok_shape st0 lbs0 b st1 hs hins
      have hrec := ih st1 (lbs0 ++ [{ blk := b, prev := st0.latest.bhash }]) st hs1 h
      have hl : st1.latest = ({ blk := b, prev := st0.latest.bhash } : LBlock) := by
        rw [hs1.tip_eq, lastD_append_single]
      rw [hl] at hrec
      have hlist : lbs0 ++ linkAll st0.latest.bhash (b :: rest) =
          (lbs0 ++ [({ blk := b, prev := st0.latest.bhash } : LBlock)]) ++
            linkAll (LBlock.bhash { blk := b, prev := st0.latest.bhash }) rest := by
        simp [linkAll]
      rw [hlist]
      exact hrec
    | split st1 =>
      rw [hins] at h
      exact absurd h (by simp)
    | typeErr =>
      rw [hins] at h
      exact absurd h (by simp)

/-! ## The walk of the `chain` property -/

/-- Unfolding equation of `chainWalk` at zero fuel. -/
theorem chainWalk_zero (cm : CMap) (b : LBlock) :
    chainWalk cm b 0 = if b.prev = .zero then some [b] else none := rfl

/-- Unfolding equation of `chainWalk` at positive fuel. -/
theorem chainWalk_succ (cm : CMap) (b : LBlock) (f' : Nat) :
    chainWalk cm b (f' + 1) =
      if b.prev = .zero then some [b]
      else
        match lookupV cm b.prev with
        | none => none
        | some b' => (chainWalk cm b' f').map (b :: ·) := rfl

/-- Whatever list the `chain` walk returns starts at the block it was started
from, follows `previous_block_hash` lookups, and ends at a block whose
`previous_block_hash` is the `bytes(0)` sentinel. -/
theorem chainWalk_spec (cm : CMap) : ∀ (fuel : Nat) (b : LBlock) (L : List LBlock),
    chainWalk cm b fuel = some L →
    L.head? = some b ∧
    List.Chain' (fun a b' => lookupV cm a.prev = some b') L ∧
    ∃ lb, L.getLast? = some lb ∧ lb.prev = .zero := by
  intro fuel
  induction fuel with
  | zero =>
    intro b L h
    rw [chainWalk_zero] at h
    by_cases hz : b.prev = .zero
    · rw [if_pos hz] at h
      injection h with h
      subst h
      exact ⟨rfl, List.chain'_singleton _, b, rfl, hz⟩
    · rw [if_neg hz] at h
      exact absurd h (by simp)
  | succ f' ih =>
    intro b L h
    rw [chainWalk_succ] at h
    by_cases hz : b.prev = .zero
    · rw [if_pos hz] at h
      injection h with h
      subst h
      exact ⟨rfl, List.chain'_singleton _, b, rfl, hz⟩
    · rw [if_neg hz] at h
      cases hlk : lookupV cm b.prev with
      | none =>
        simp only [hlk] at h
        exact Option.noConfusion h
      | some b' =>
        simp only [hlk] at h
        cases hw : chainWalk cm b' f' with
        | none =>
          rw [hw] at h
          simp at h
        | some L' =>
          rw [hw] at h
          simp only [Option.map_some', Option.some.injEq] at h
          subst h
          obtain ⟨hhd, hch, lb, hlast, hlz⟩ := ih b' L' hw
          refine ⟨rfl, ?_, lb, ?_, hlz⟩
          · rw [List.chain'_cons']
            refine ⟨?_, hch⟩
            intro y hy
            rw [hhd] at hy
            simp only [Option.mem_def, Option.some.injEq] at hy
            subst hy
            exact hlk
          · cases L' with
            | nil => simp at hhd
            | cons x xs => rw [List.getLast?_cons_cons]; exact hlast

/-- On a list shaped like an insert-built chain, the `chain` walk starting at
the last block returns the whole list newest-to-oldest. -/
theorem chainWalk_on_list (pre : List LBlock) : ∀ (cm : CMap),
    pre ≠ [] → pre.head? = some initialLB →
    List.Chain' (fun a b => b.prev = a.bhash) pre →
    (∀ lb ∈ pre, lookupV cm lb.bhash = some lb) →
    ∀ fuel, pre.length ≤ fuel + 1 →
    chainWalk cm (lastD pre) fuel = some pre.reverse := by
  induction pre using List.reverseRecOn with
  | nil =>
    intro cm h
    exact absurd rfl h
  | append_singleton l b ih =>
    intro cm _ hhd hlink hlook fuel hfuel
    by_cases hlne : l = []
    · subst hlne
      simp only [List.nil_append, List.head?_cons, Option.some.injEq] at hhd
      subst hhd
      show chainWalk cm initialLB fuel = some [initialLB]
      cases fuel with
      | zero => rw [chainWalk_zero, if_pos (show initialLB.prev = BlockHash.zero from rfl)]
      | succ f => rw [chainWalk_succ, if_pos (show initialLB.prev = BlockHash.zero from rfl)]
    · obtain ⟨hchl, _, hrel⟩ := List.chain'_append.mp hlink
      have hbprev : b.prev = (lastD l).bhash := by
        apply hrel (lastD l) _ b
        · simp
        · rw [getLast?_eq_lastD l hlne]
          rfl
      have hnz : b.prev ≠ .zero := by
        rw [hbprev]
        simp [LBlock.bhash]
      have hpos : 0 < l.length := List.length_pos.mpr hlne
      cases fuel with
      | zero =>
        exfalso
        simp only [List.length_append, List.length_cons, List.length_nil] at hfuel
        omega
      | succ f' =>
        have hlk : lookupV cm b.prev = some (lastD l) := by
          rw [hbprev]
          exact hlook (lastD l) (List.mem_append_left _ (lastD_mem l hlne))
        have hwalk : chainWalk cm (lastD l) f' = some l.reverse := by
          apply ih cm hlne _ hchl _ f' _
          · rw [← head?_append_left l [b] hlne]
            exact hhd
          · intro lb hm
            exact hlook lb (List.mem_append_left _ hm)
          · simp only [List.length_append, List.length_cons, List.length_nil] at hfuel
            omega
        rw [lastD_append_single]
        rw [chainWalk_succ, if_neg hnz]
        simp only [hlk]
        rw [hwalk]
        simp

/-- On every insert-built chain the `chain` property returns the whole chain
newest to oldest: tip first, genesis last, consecutive elements linked by the
`previous_block_hash` lookup. -/
theorem chain_list_newest_first_insert (bs : List Block) (st : Chain)
    (hs : insertSeq freshChain bs = some st) :
    ∃ L, chain_list st = some L ∧ L ≠ [] ∧ L.head? = some st.latest ∧
      List.Chain' (fun a b => lookupV st.chainMap a.prev = some b) L ∧
      L.getLast? = some initialLB := by
  have hshape := insertSeq_shape bs freshChain [initialLB] st freshChain_shape hs
  obtain ⟨hne, hhd, hlink, hmap, htip, hdep⟩ := hshape
  have hlookAll : ∀ lb ∈ [initialLB] ++ linkAll freshChain.latest.bhash bs,
      lookupV st.chainMap lb.bhash = some lb := by
    intro lb hm
    rw [hmap]
    exact lookupV_entriesOf _ 1 lb hdep hm
  have hlen : st.chainMap.length =
      ([initialLB] ++ linkAll freshChain.latest.bhash bs).length := by
    rw [hmap]
    simp [entriesOf]
  have hwalk : chainWalk st.chainMap (lastD ([initialLB] ++ linkAll freshChain.latest.bhash bs))
      (st.chainMap.length + 1) =
      some ([initialLB] ++ linkAll freshChain.latest.bhash bs).reverse := by
    apply chainWalk_on_list _ st.chainMap hne hhd hlink hlookAll
    omega
  have hcl : chain_list st = some ([initialLB] ++ linkAll freshChain.latest.bhash bs).reverse := by
    unfold chain_list
    rw [htip]
    exact hwalk
  obtain ⟨hhead, hch, _⟩ := chainWalk_spec st.chainMap _ _ _
    (show chainWalk st.chainMap st.latest (st.chainMap.length + 1) =
      some ([initialLB] ++ linkAll freshChain.latest.bhash bs).reverse by
        rw [htip]; exact hwalk)
  refine ⟨_, hcl, ?_, ?_, hch, ?_⟩
  · simp [hne]
  · rw [hhead]
  · rw [List.getLast?_reverse]
    exact hhd

/-- Claim C4 (amended): for every chain built from a fresh chain by successful
`insert_block` calls, the `chain` property (the snapshot sent in reply to
`REGISTER_SERVER`) returns the blocks ordered *newest to oldest*: its first
element is the tip, each element's `previous_block_hash` resolves in
`blocks_by_hash` to the next element, and its last element is the genesis block
— the reverse of the order the claim states.  (The seeded constructor agrees:
it takes `chain[0]` as the tip.)  The restriction to insert-built chains is
necessary, not a convenience: the second conjunct exhibits a chain built by one
successful `insert_block` plus one successful `merge_blocks` on which the
`chain` property raises `KeyError` instead of returning any list — the merge
keeps a stored block whose predecessor hash was deleted when the conflicted tip
was re-keyed. -/
theorem chain_list_newest_first :
    (∀ (bs : List Block) (st : Chain), insertSeq freshChain bs = some st →
      ∃ L, chain_list st = some L ∧ L ≠ [] ∧ L.head? = some st.latest ∧
        List.Chain' (fun a b => lookupV st.chainMap a.prev = some b) L ∧
        L.getLast? = some initialLB) ∧
    (insertSeq freshChain [c4mT] = some c4mBase ∧
      merge_blocks c4mBase [c4mX, c4mY] 10 = .ok [c4mX, c4mY, c4mTRe] c4mAfter ∧
      chain_list c4mAfter = none) := by
  constructor
  · intro bs st hs
    exact chain_list_newest_first_insert bs st hs
  · refine ⟨by decide, by decide, by decide⟩

/-- Witness for C4's amended claim at a concrete chain: one inserted block, so
the list is `[tip, genesis]` — tip first, genesis last, linked by lookup. -/
theorem chain_list_newest_first_witness :
    ∃ L, chain_list c4St = some L ∧ L ≠ [] ∧ L.head? = some c4St.latest ∧
      List.Chain' (fun a b => lookupV c4St.chainMap a.prev = some b) L ∧
      L.getLast? = some initialLB :=
  chain_list_newest_first.1 [c4Block] c4St (by decide)

/-! ## The walk of `verify_integrity` on insert-built chains -/

/-- Unfolding equation of `verifyLoop` at zero fuel. -/
theorem verifyLoop_zero (cm : CMap) (b : LBlock) (cnt : Counters) :
    verifyLoop cm 0 b cnt =
      if b.prev = .zero then
        some (decide (b.bhash = initialLB.bhash) && decide (cnt = []))
      else none := rfl

/-- Unfolding equation of `verifyLoop` at positive fuel. -/
theorem verifyLoop_succ (cm : CMap) (f' : Nat) (b : LBlock) (cnt : Counters) :
    verifyLoop cm (f' + 1) b cnt =
      if b.prev = .zero then
        some (decide (b.bhash = initialLB.bhash) && decide (cnt = []))
      else
        match lookupV cm b.prev with
        | none => some false
        | some b' => verifyLoop cm f' b' (stepCnt cnt b'.blk.file_hash b'.blk.index_all) := rfl

theorem runCnt_append (cnt : Counters) (l1 l2 : List (ByteStr × Nat)) :
    runCnt cnt (l1 ++ l2) = runCnt (runCnt cnt l1) l2 := by
  simp [runCnt, List.foldl_append]

theorem lastD_split (l : List LBlock) (h : l ≠ []) : l = l.dropLast ++ [lastD l] := by
  induction l with
  | nil => exact absurd rfl h
  | cons a rest ih =>
    cases rest with
    | nil => rfl
    | cons y ys =>
      have := ih (by simp)
      show a :: (y :: ys) = a :: (y :: ys).dropLast ++ [lastD (y :: ys)]
      rw [List.cons_append]
      rw [← this]

/-- On a list shaped like an insert-built chain, the `verify_integrity` loop
started at the last block processes the remaining blocks newest-to-oldest
through the counters and succeeds the genesis check. -/
theorem verifyLoop_on_list (pre : List LBlock) : ∀ (cm : CMap) (cnt : Counters),
    pre ≠ [] → pre.head? = some initialLB →
    List.Chain' (fun a b => b.prev = a.bhash) pre →
    (∀ lb ∈ pre, lookupV cm lb.bhash = some lb) →
    ∀ fuel, pre.length ≤ fuel + 1 →
    verifyLoop cm fuel (lastD pre) cnt =
      some (decide (runCnt cnt (pre.dropLast.reverse.map fmOf) = [])) := by
  induction pre using List.reverseRecOn with
  | nil =>
    intro cm cnt h
    exact absurd rfl h
  | append_singleton l b ih =>
    intro cm cnt _ hhd hlink hlook fuel hfuel
    by_cases hlne : l = []
    · subst hlne
      simp only [List.nil_append, List.head?_cons, Option.some.injEq] at hhd
      subst hhd
      show verifyLoop cm fuel initialLB cnt = some (decide (runCnt cnt [] = []))
      cases fuel with
      | zero =>
        rw [verifyLoop_zero, if_pos (show initialLB.prev = BlockHash.zero from rfl)]
        simp [runCnt]
      | succ f =>
        rw [verifyLoop_succ, if_pos (show initialLB.prev = BlockHash.zero from rfl)]
        simp [runCnt]
    · obtain ⟨hchl, -, hrel⟩ := List.chain'_append.mp hlink
      have hbprev : b.prev = (lastD l).bhash := by
        apply hrel (lastD l) _ b
        · simp
        · rw [getLast?_eq_lastD l hlne]
          rfl
      have hnz : b.prev ≠ .zero := by
        rw [hbprev]
        simp [LBlock.bhash]
      have hpos : 0 < l.length := List.length_pos.mpr hlne
      cases fuel with
      | zero =>
        exfalso
        simp only [List.length_append, List.length_cons, List.length_nil] at hfuel
        omega
      | succ f' =>
        have hlk : lookupV cm b.prev = some (lastD l) := by
          rw [hbprev]
          exact hlook (lastD l) (List.mem_append_left _ (lastD_mem l hlne))
        rw [lastD_append_single, verifyLoop_succ, if_neg hnz]
        simp only [hlk]
        rw [ih cm (stepCnt cnt (lastD l).blk.file_hash (lastD l).blk.index_all) hlne
          (by rw [← head?_append_left l [b] hlne]; exact hhd) hchl
          (fun lb hm => hlook lb (List.mem_append_left _ hm)) f'
          (by simp only [List.length_append, List.length_cons, List.length_nil] at hfuel; omega)]
        have hlist : (l ++ [b]).dropLast.reverse.map fmOf =
            fmOf (lastD l) :: l.dropLast.reverse.map fmOf := by
          rw [List.dropLast_concat]
          conv_lhs => rw [lastD_split l hlne]
          simp [fmOf]
        rw [hlist]
        rfl

/-- `verify_integrity` on an insert-built chain reduces to the counter
bookkeeping over all blocks walked newest-to-oldest (the genesis check always
passes). -/
theorem verify_shape (st : Chain) (lbs : List LBlock) (hs : ChainShape st lbs) :
    verify_integrity st = some (decide (runCnt [] (lbs.reverse.map fmOf) = [])) := by
  obtain ⟨hne, hhd, hlink, hmap, htip, hdep⟩ := hs
  have hlook : ∀ lb ∈ lbs, lookupV st.chainMap lb.bhash = some lb := by
    intro lb hm
    rw [hmap]
    exact lookupV_entriesOf lbs 1 lb hdep hm
  have hlen : st.chainMap.length = lbs.length := by
    rw [hmap]
    simp [entriesOf]
  unfold verify_integrity
  rw [htip]
  rw [verifyLoop_on_list lbs st.chainMap _ hne hhd hlink hlook _ (by omega)]
  have hlist : lbs.reverse.map fmOf = fmOf (lastD lbs) :: lbs.dropLast.reverse.map fmOf := by
    conv_lhs => rw [lastD_split lbs hne]
    simp [fmOf]
  rw [hlist]
  rfl

/-! ## The counter automaton of `verify_integrity`, one file at a time -/

theorem map_fst_upsertV_of_some (l : List (κ × α)) (k : κ) (v : α)
    (h : (lookupV l k).isSome) : (upsertV l k v).map Prod.fst = l.map Prod.fst := by
  induction l with
  | nil => simp [lookupV] at h
  | cons p rest ih =>
    obtain ⟨k0, v0⟩ := p
    by_cases h0 : k = k0
    · simp [upsertV, h0]
    · simp only [lookupV, if_neg h0] at h
      simp [upsertV, h0, ih h]

theorem mem_map_fst_eraseV (l : List (κ × α)) (k k' : κ)
    (h : k' ∈ (eraseV l k).map Prod.fst) : k' ∈ l.map Prod.fst := by
  induction l with
  | nil => simp [eraseV] at h
  | cons p rest ih =>
    obtain ⟨k0, v0⟩ := p
    by_cases h0 : k = k0
    · simp only [eraseV, if_pos h0] at h
      simp [h]
    · simp only [eraseV, if_neg h0, List.map_cons, List.mem_cons] at h
      rcases h with h | h
      · simp [h]
      · simp [ih h]

theorem KeysNodup_eraseV (l : List (κ × α)) (k : κ) (h : KeysNodup l) :
    KeysNodup (eraseV l k) := by
  induction l with
  | nil => simpa [eraseV] using h
  | cons p rest ih =>
    obtain ⟨k0, v0⟩ := p
    unfold KeysNodup at h ⊢
    simp only [List.map_cons, List.nodup_cons] at h
    by_cases h0 : k = k0
    · simp only [eraseV, if_pos h0]
      exact h.2
    · simp only [eraseV, if_neg h0, List.map_cons, List.nodup_cons]
      refine ⟨fun hm => h.1 (mem_map_fst_eraseV rest k k0 hm), ih h.2⟩

theorem KeysNodup_upsertV (l : List (κ × α)) (k : κ) (v : α) (h : KeysNodup l) :
    KeysNodup (upsertV l k v) := by
  cases hl : lookupV l k with
  | some w =>
    unfold KeysNodup
    rw [map_fst_upsertV_of_some l k v (by simp [hl])]
    exact h
  | none =>
    rw [upsertV_of_lookup_none l k v hl]
    unfold KeysNodup at h ⊢
    rw [List.map_append]
    rw [List.nodup_append]
    refine ⟨h, by simp, ?_⟩
    intro x hx
    simp only [List.map_cons, List.map_nil, List.mem_singleton]
    intro hxk
    subst hxk
    exact absurd hl (by rw [lookupV_eq_none_iff]; simp [hx])

theorem stepCnt_nodup (cnt : Counters) (f : ByteStr) (m : Nat) (h : KeysNodup cnt) :
    KeysNodup (stepCnt cnt f m) := by
  unfold stepCnt
  by_cases hm : m - 1 > 0
  · rw [if_pos hm]
    cases hl : lookupV cnt f with
    | some v =>
      show KeysNodup (if v = 1 then eraseV cnt f else upsertV cnt f (v - 1))
      by_cases hv : v = 1
      · rw [if_pos hv]
        exact KeysNodup_eraseV cnt f h
      · rw [if_neg hv]
        exact KeysNodup_upsertV cnt f (v - 1) h
    | none =>
      show KeysNodup (cnt ++ [(f, m - 1)])
      unfold KeysNodup at h ⊢
      rw [List.map_append, List.nodup_append]
      refine ⟨h, by simp, ?_⟩
      intro x hx
      simp only [List.map_cons, List.map_nil, List.mem_singleton]
      intro hxk
      subst hxk
      exact absurd hl (by rw [lookupV_eq_none_iff]; simp [hx])
  · rw [if_neg hm]
    exact h

theorem lookup_stepCnt (cnt : Counters) (f0 : ByteStr) (m : Nat) (f : ByteStr)
    (h : KeysNodup cnt) :
    lookupV (stepCnt cnt f0 m) f =
      if f = f0 then stepV (lookupV cnt f) m else lookupV cnt f := by
  by_cases hm : m - 1 > 0
  · simp only [stepCnt, stepV, if_pos hm]
    cases hlk : lookupV cnt f0 with
    | some v =>
      show lookupV (if v = 1 then eraseV cnt f0 else upsertV cnt f0 (v - 1)) f = _
      by_cases hv : v = 1
      · rw [if_pos hv]
        by_cases hf : f = f0
        · subst hf
          rw [if_pos rfl, hlk]
          show lookupV (eraseV cnt f) f = if v = 1 then none else some (v - 1)
          rw [if_pos hv, lookupV_eraseV_self cnt f h]
        · rw [if_neg hf, lookupV_eraseV_ne cnt f0 f hf]
      · rw [if_neg hv]
        by_cases hf : f = f0
        · subst hf
          rw [if_pos rfl, hlk]
          show lookupV (upsertV cnt f (v - 1)) f = if v = 1 then none else some (v - 1)
          rw [if_neg hv, lookupV_upsertV_self]
        · rw [if_neg hf, lookupV_upsertV_ne cnt f0 f (v - 1) hf]
    | none =>
      show lookupV (cnt ++ [(f0, m - 1)]) f = _
      by_cases hf : f = f0
      · subst hf
        rw [if_pos rfl, hlk, lookupV_append, hlk]
        simp [lookupV]
      · rw [if_neg hf, lookupV_append]
        cases hl2 : lookupV cnt f with
        | some w => rfl
        | none => simp [lookupV, hf]
  · simp only [stepCnt, stepV, if_neg hm]
    by_cases hf : f = f0 <;> simp [hf]

theorem lookup_runCnt : ∀ (l : List (ByteStr × Nat)) (cnt : Counters), KeysNodup cnt →
    ∀ f, lookupV (runCnt cnt l) f = runV (lookupV cnt f) (filterF l f) := by
  intro l
  induction l with
  | nil =>
    intro cnt h f
    rfl
  | cons p rest ih =>
    intro cnt h f
    obtain ⟨f0, m⟩ := p
    show lookupV (runCnt (stepCnt cnt f0 m) rest) f = _
    rw [ih (stepCnt cnt f0 m) (stepCnt_nodup cnt f0 m h) f]
    rw [lookup_stepCnt cnt f0 m f h]
    by_cases hf : f = f0
    · subst hf
      simp [filterF, runV]
    · have hf' : ¬ (f0 = f) := fun hh => hf hh.symm
      simp [filterF, runV, hf, hf']

theorem eq_nil_of_lookupV_none (c : Counters) (h : ∀ f, lookupV c f = none) : c = [] := by
  cases c with
  | nil => rfl
  | cons p rest =>
    obtain ⟨k, v⟩ := p
    have := h k
    simp [lookupV] at this

theorem runV_append (v : Option Nat) (ms1 ms2 : List Nat) :
    runV v (ms1 ++ ms2) = runV (runV v ms1) ms2 := by
  simp [runV, List.foldl_append]

theorem runV_small (m : Nat) (hm : m ≤ 1) : ∀ (j : Nat) (v : Option Nat),
    runV v (List.replicate j m) = v := by
  intro j
  induction j with
  | zero => intro v; rfl
  | succ n ih =>
    intro v
    show runV (stepV v m) (List.replicate n m) = v
    have hs : stepV v m = v := by
      unfold stepV
      rw [if_neg (by omega)]
    rw [hs, ih]

theorem runV_replicate (m : Nat) (hm : 2 ≤ m) : ∀ j, runV none (List.replicate j m) =
    (if j % m = 0 then none else some (m - j % m)) := by
  intro j
  induction j with
  | zero => simp [runV]
  | succ n ih =>
    rw [List.replicate_succ', runV_append, ih]
    show stepV (if n % m = 0 then none else some (m - n % m)) m = _
    have hmod : (n + 1) % m = (n % m + 1) % m := by
      conv_lhs => rw [Nat.add_mod n 1 m]
      rw [Nat.mod_eq_of_lt (show 1 < m by omega)]
    have hlt : n % m < m := Nat.mod_lt _ (by omega)
    by_cases h0 : n % m = 0
    · rw [if_pos h0, hmod, h0]
      have h1 : (0 + 1) % m = 1 := Nat.mod_eq_of_lt (by omega)
      rw [h1]
      have hs : stepV none m = some (m - 1) := by
        simp [stepV, show m - 1 > 0 by omega]
      rw [hs]
      simp
    · rw [if_neg h0]
      by_cases h1 : n % m = m - 1
      · have hv1 : m - n % m = 1 := by omega
        rw [hv1]
        have hs : stepV (some 1) m = none := by
          simp [stepV, show m - 1 > 0 by omega]
        rw [hs, hmod, h1]
        have h2 : (m - 1 + 1) % m = 0 := by
          rw [show m - 1 + 1 = m by omega, Nat.mod_self]
        rw [h2]
        simp
      · have hk : m - n % m ≠ 1 := by omega
        have hs : stepV (some (m - n % m)) m = some (m - n % m - 1) := by
          simp [stepV, show m - 1 > 0 by omega, hk]
        rw [hs, hmod]
        have h2 : (n % m + 1) % m = n % m + 1 := Nat.mod_eq_of_lt (by omega)
        rw [h2, if_neg (by omega : ¬ (n % m + 1 = 0))]
        congr 1

theorem filterF_reverse (l : List (ByteStr × Nat)) (f : ByteStr) :
    filterF l.reverse f = (filterF l f).reverse := by
  simp [filterF, List.filterMap_reverse]

theorem filterF_map_fmB (bs : List Block) (f : ByteStr) :
    filterF (bs.map fmB) f =
      bs.filterMap (fun b => if b.file_hash = f then some b.index_all else none) := by
  simp only [filterF, List.filterMap_map]
  rfl

theorem length_filterMap_count (bs : List Block) (f : ByteStr) :
    (bs.filterMap (fun b => if b.file_hash = f then some b.index_all else none)).length =
      bs.countP (fun b => decide (b.file_hash = f)) := by
  induction bs with
  | nil => rfl
  | cons b rest ih =>
    by_cases hb : b.file_hash = f
    · simp [List.filterMap_cons, List.countP_cons, hb, ih]
    · simp [List.filterMap_cons, List.countP_cons, hb, ih]

/-- The counters end empty whenever, for each file, all its walked blocks agree
on `index_all` and the number of its walked blocks is a multiple of it. -/
theorem runCnt_nil_of_complete (l : List (ByteStr × Nat))
    (hu : ∀ p ∈ l, ∀ q ∈ l, p.1 = q.1 → p.2 = q.2)
    (hc : ∀ p ∈ l, p.2 ∣ (filterF l p.1).length) :
    runCnt [] l = [] := by
  apply eq_nil_of_lookupV_none
  intro f
  rw [lookup_runCnt l [] (by simp [KeysNodup]) f]
  show runV none (filterF l f) = none
  by_cases hnil : filterF l f = []
  · rw [hnil]
    rfl
  · obtain ⟨m, ms, hfl⟩ : ∃ m ms, filterF l f = m :: ms := by
      cases hq : filterF l f with
      | nil => exact absurd hq hnil
      | cons a as => exact ⟨a, as, rfl⟩
    have hm : m ∈ filterF l f := by
      rw [hfl]
      simp
    obtain ⟨p, hp, hpe⟩ := List.mem_filterMap.mp hm
    have hp1 : p.1 = f ∧ p.2 = m := by
      by_cases hx : p.1 = f
      · rw [if_pos hx] at hpe
        exact ⟨hx, by injection hpe⟩
      · rw [if_neg hx] at hpe
        exact absurd hpe (by simp)
    have hall : ∀ x ∈ filterF l f, x = m := by
      intro x hx
      obtain ⟨q, hq, hqe⟩ := List.mem_filterMap.mp hx
      have hq1 : q.1 = f ∧ q.2 = x := by
        by_cases hy : q.1 = f
        · rw [if_pos hy] at hqe
          exact ⟨hy, by injection hqe⟩
        · rw [if_neg hy] at hqe
          exact absurd hqe (by simp)
      have := hu q hq p hp (by rw [hq1.1, hp1.1])
      rw [← hq1.2, this, hp1.2]
    have hrep : filterF l f = List.replicate (filterF l f).length m :=
      List.eq_replicate_iff.mpr ⟨rfl, hall⟩
    have hdvd : m ∣ (filterF l f).length := by
      rw [← hp1.2]
      have := hc p hp
      rw [hp1.1] at this
      exact this
    rw [hrep]
    by_cases hm2 : 2 ≤ m
    · rw [runV_replicate m hm2]
      obtain ⟨c, hc'⟩ := hdvd
      rw [hc', Nat.mul_mod_right]
      simp
    · exact runV_small m (by omega) _ none

/-- Claim C1 (amended): for every chain built from a fresh chain by successful
`insert_block` calls in which, for every file, all of its blocks carry the same
`index_all` and the number of blocks inserted for it is a multiple of that
`index_all` (in the common case exactly its `index_all` distinct blocks),
`verify_integrity()` returns true.  With a partially inserted file it returns
false instead (see the counterexample). -/
theorem verify_true_after_complete_inserts (bs : List Block) (st : Chain)
    (_hv : ∀ b ∈ bs, b.valid)
    (hu : ∀ b ∈ bs, ∀ b' ∈ bs, b.file_hash = b'.file_hash → b.index_all = b'.index_all)
    (hc : ∀ b ∈ bs, b.index_all ∣ bs.countP (fun b' => decide (b'.file_hash = b.file_hash)))
    (hins : insertSeq freshChain bs = some st) :
    verify_integrity st = some true := by
  have hshape := insertSeq_shape bs freshChain [initialLB] st freshChain_shape hins
  rw [verify_shape st _ hshape]
  have hseq : ([initialLB] ++ linkAll freshChain.latest.bhash bs).reverse.map fmOf =
      ((linkAll freshChain.latest.bhash bs).reverse.map fmOf) ++ [fmOf initialLB] := by
    simp
  rw [hseq, runCnt_append]
  have hgen : ∀ c : Counters, runCnt c [fmOf initialLB] = c := fun c => rfl
  rw [hgen]
  have hmapfm : (linkAll freshChain.latest.bhash bs).map fmOf = bs.map fmB := by
    have h1 : (linkAll freshChain.latest.bhash bs).map fmOf =
        ((linkAll freshChain.latest.bhash bs).map LBlock.blk).map fmB := by
      rw [List.map_map]
      rfl
    rw [h1, linkAll_blks]
  have hrev : (linkAll freshChain.latest.bhash bs).reverse.map fmOf =
      (bs.map fmB).reverse := by
    rw [List.map_reverse, hmapfm]
  rw [hrev]
  have hempty : runCnt [] (bs.map fmB).reverse = [] := by
    apply runCnt_nil_of_complete
    · intro p hp q hq hpq
      rw [List.mem_reverse] at hp hq
      obtain ⟨b, hb, rfl⟩ := List.mem_map.mp hp
      obtain ⟨b', hb', rfl⟩ := List.mem_map.mp hq
      exact hu b hb b' hb' hpq
    · intro p hp
      rw [List.mem_reverse] at hp
      obtain ⟨b, hb, rfl⟩ := List.mem_map.mp hp
      rw [filterF_reverse, List.length_reverse, filterF_map_fmB, length_filterMap_count]
      exact hc b hb
  rw [hempty]
  rfl

/-- Witness for C1's amended claim: inserting both chunks of a two-chunk file
on a fresh chain yields a chain whose `verify_integrity` is true. -/
theorem verify_true_after_complete_inserts_witness :
    verify_integrity c1wSt = some true :=
  verify_true_after_complete_inserts c1wBs c1wSt (by decide) (by decide) (by decide)
    (by decide)

end Filechain
